import Mathlib

/-!
# Verification of the BusTub storage-and-caching core

Shallow embedding of the repository's five source files:

* `src/buffer/lru_replacer.cpp` — the LRU replacer,
* `src/buffer/buffer_pool_manager.cpp` — the buffer pool manager,
* `src/storage/page/b_plus_tree_internal_page.cpp` — internal B+ tree pages,
* `src/storage/page/b_plus_tree_leaf_page.cpp` — leaf B+ tree pages.

The embedding is sequential: every C++ entry point takes and releases the
pool latch for its whole duration, so each call is one atomic state
transformation.  Machine integers (`page_id_t`, `frame_id_t`, sizes) stay far
from overflow in every scenario considered, so they are modelled as `Int` and
`Nat`.  Frame byte buffers are modelled as one abstract content token
(`Nat`); the code never inspects buffer contents, it only copies them.

The block device (`DiskManager`) is an external collaborator of the
repository, specified only by contract; it is modelled from that contract
with explicit call logs (`writes`, `reads`, `deallocated`) so that theorems
can observe which device operations the pool performed.
-/

namespace Bustub

/-! ## LRU replacer (`src/buffer/lru_replacer.cpp`)

`nodes_` is a `std::list<frame_id_t>`: `push_front` inserts at the head,
`pop_back` removes at the tail.  The head of the Lean list is the front.
`index_` (frame id → list iterator) is representational only: under the
class invariant each frame occurs at most once, so erasing through the
iterator is erasing the one occurrence. -/

structure LRUReplacer where
  nodes : List Nat
deriving DecidableEq, Repr

namespace LRUReplacer

/-- `LRUReplacer::Victim` (lru_replacer.cpp:21-31): if the list is empty
report failure, otherwise remove and return the back element. -/
def Victim (r : LRUReplacer) : Option Nat × LRUReplacer :=
  match r.nodes.getLast? with
  | none => (none, r)
  | some v => (some v, ⟨r.nodes.dropLast⟩)

/-- `LRUReplacer::Pin` (lru_replacer.cpp:33-42): erase the frame from the
candidate list if present, else a no-op. -/
def Pin (r : LRUReplacer) (f : Nat) : LRUReplacer :=
  if f ∈ r.nodes then ⟨r.nodes.erase f⟩ else r

/-- `LRUReplacer::Unpin` (lru_replacer.cpp:44-52): if the frame is already
in the list do nothing, else push it at the front. -/
def Unpin (r : LRUReplacer) (f : Nat) : LRUReplacer :=
  if f ∈ r.nodes then r else ⟨f :: r.nodes⟩

/-- `LRUReplacer::Size` (lru_replacer.cpp:54-57). -/
def Size (r : LRUReplacer) : Nat := r.nodes.length

theorem Pin_nodes (r : LRUReplacer) (f : Nat) : (r.Pin f).nodes = r.nodes.erase f := by
  unfold Pin
  by_cases h : f ∈ r.nodes
  · simp [h]
  · simp [h, List.erase_of_not_mem h]

end LRUReplacer

/-! ## Block device model (external contract, spec §6)

Modelled from the spec: `ReadPage` fills a buffer with the page's current
on-disk bytes, `WritePage` persists a buffer, `AllocatePage` returns a fresh
identifier, `DeallocatePage` releases one.  The `writes`, `reads` and
`deallocated` fields log every call (most recent first) so that theorems can
state which device operations a pool operation performed. -/

structure DiskManager where
  content : Int → Nat
  writes : List (Int × Nat)
  reads : List Int
  deallocated : List Int
  nextPage : Nat

namespace DiskManager

/-- `DiskManager::WritePage`: persist `x` as page `p`'s bytes. -/
def WritePage (d : DiskManager) (p : Int) (x : Nat) : DiskManager :=
  { d with content := fun q => if q = p then x else d.content q
           writes := (p, x) :: d.writes }

/-- `DiskManager::ReadPage`: return page `p`'s current on-disk bytes. -/
def ReadPage (d : DiskManager) (p : Int) : Nat × DiskManager :=
  (d.content p, { d with reads := p :: d.reads })

/-- `DiskManager::AllocatePage`: hand out a fresh identifier. -/
def AllocatePage (d : DiskManager) : Int × DiskManager :=
  (Int.ofNat d.nextPage, { d with nextPage := d.nextPage + 1 })

/-- `DiskManager::DeallocatePage`: release identifier `p`. -/
def DeallocatePage (d : DiskManager) (p : Int) : DiskManager :=
  { d with deallocated := p :: d.deallocated }

end DiskManager

/-! ## Page frames and the buffer pool manager
(`src/buffer/buffer_pool_manager.cpp`) -/

/-- One slot of the pool's fixed frame array (`Page` in page.h): byte buffer
plus metadata.  A fresh `Page` has `page_id_ = INVALID_PAGE_ID` (= -1),
`pin_count_ = 0`, `is_dirty_ = false` and a zeroed buffer. -/
structure Frame where
  page_id : Int
  pin_count : Nat
  is_dirty : Bool
  data : Nat
deriving DecidableEq, Repr

/-- The zero-initialised frame produced by `new Page[pool_size]`. -/
def Frame.init : Frame := ⟨-1, 0, false, 0⟩

/-- Pointwise update of the frame array at index `f`. -/
def updF (frames : Nat → Frame) (f : Nat) (fr : Frame) : Nat → Frame :=
  fun g => if g = f then fr else frames g

/-- The page table `std::unordered_map<page_id_t, frame_id_t>`: modelled as
an association list with map semantics (`ptLookup` below); keys are unique. -/
def ptLookup : List (Int × Nat) → Int → Option Nat
  | [], _ => none
  | e :: rest, p => if e.1 = p then some e.2 else ptLookup rest p

/-- `page_table_.erase(p)`: drop the entry with key `p`. -/
def ptErase (pt : List (Int × Nat)) (p : Int) : List (Int × Nat) :=
  pt.filter (fun e => decide (e.1 ≠ p))

/-- `page_table_[p] = f`: bind key `p` to `f`, replacing any previous
binding. -/
def ptInsert (pt : List (Int × Nat)) (p : Int) (f : Nat) : List (Int × Nat) :=
  (p, f) :: ptErase pt p

/-- The buffer pool manager's state: frame array, page table, free list,
replacer and the attached block device. -/
structure BufferPoolManager where
  pool_size : Nat
  frames : Nat → Frame
  page_table : List (Int × Nat)
  free_list : List Nat
  replacer : LRUReplacer
  disk : DiskManager

namespace BufferPoolManager

/-- The constructor (buffer_pool_manager.cpp:20-31): all frames
zero-initialised, every frame id pushed onto the free list in order. -/
def mk' (n : Nat) (d : DiskManager) : BufferPoolManager :=
  { pool_size := n
    frames := fun _ => Frame.init
    page_table := []
    free_list := List.range n
    replacer := ⟨[]⟩
    disk := d }

/-- `FindAvailablePage` (buffer_pool_manager.cpp:190-197): pop the head of
the free list if non-empty, else ask the replacer for a victim. -/
def FindAvailablePage (s : BufferPoolManager) : Option Nat × BufferPoolManager :=
  match s.free_list with
  | f :: rest => (some f, { s with free_list := rest })
  | [] =>
    match s.replacer.Victim with
    | (none, r') => (none, { s with replacer := r' })
    | (some v, r') => (some v, { s with replacer := r' })

/-- `FlushPageIfPossible` (buffer_pool_manager.cpp:199-204): if the frame is
dirty, write its buffer to the device and clear the dirty flag. -/
def FlushPageIfPossible (fr : Frame) (d : DiskManager) : Frame × DiskManager :=
  if fr.is_dirty then ({ fr with is_dirty := false }, d.WritePage fr.page_id fr.data)
  else (fr, d)

/-- `FetchPageImpl` (buffer_pool_manager.cpp:38-75).  Returns the frame id
of the returned `Page*` (or `none` for `nullptr`) and the new pool state. -/
def FetchPageImpl (s : BufferPoolManager) (p : Int) : Option Nat × BufferPoolManager :=
  match ptLookup s.page_table p with
  | some f =>
    -- hit: pin in the replacer, bump the pin count, return the frame
    let fr := s.frames f
    (some f, { s with replacer := s.replacer.Pin f
                      frames := updF s.frames f { fr with pin_count := fr.pin_count + 1 } })
  | none =>
    match s.FindAvailablePage with
    | (none, s1) => (none, s1)
    | (some f, s1) =>
      let fr := s1.frames f
      let pt1 := ptInsert (ptErase s1.page_table fr.page_id) p
      let (fr1, d1) := FlushPageIfPossible fr s1.disk
      let (bytes, d2) := d1.ReadPage p
      let fr2 := { fr1 with data := bytes, page_id := p, pin_count := 1 }
      (some f, { s1 with page_table := pt1 f
                         frames := updF s1.frames f fr2
                         disk := d2 })

/-- `UnpinPageImpl` (buffer_pool_manager.cpp:77-99). -/
def UnpinPageImpl (s : BufferPoolManager) (p : Int) (is_dirty : Bool) :
    Bool × BufferPoolManager :=
  match ptLookup s.page_table p with
  | none => (true, s)
  | some f =>
    let fr := s.frames f
    if 0 < fr.pin_count then
      let fr1 := { fr with is_dirty := fr.is_dirty || is_dirty
                           pin_count := fr.pin_count - 1 }
      let r1 := if fr1.pin_count = 0 then s.replacer.Unpin f else s.replacer
      (true, { s with frames := updF s.frames f fr1, replacer := r1 })
    else (false, s)

/-- `flushPageWithoutLock` (buffer_pool_manager.cpp:101-112). -/
def flushPageWithoutLock (s : BufferPoolManager) (p : Int) : Bool × BufferPoolManager :=
  match ptLookup s.page_table p with
  | none => (false, s)
  | some f =>
    let (fr1, d1) := FlushPageIfPossible (s.frames f) s.disk
    (true, { s with frames := updF s.frames f fr1, disk := d1 })

/-- `FlushPageImpl` (buffer_pool_manager.cpp:114-119). -/
def FlushPageImpl (s : BufferPoolManager) (p : Int) : Bool × BufferPoolManager :=
  s.flushPageWithoutLock p

/-- `NewPageImpl` (buffer_pool_manager.cpp:121-147).  Returns the allocated
page id together with the frame id of the returned `Page*`. -/
def NewPageImpl (s : BufferPoolManager) : Option (Int × Nat) × BufferPoolManager :=
  match s.FindAvailablePage with
  | (none, s1) => (none, s1)
  | (some f, s1) =>
    let (pid, d1) := s1.disk.AllocatePage
    let fr := s1.frames f
    let pt1 := ptInsert (ptErase s1.page_table fr.page_id) pid f
    let r1 := s1.replacer.Pin f
    let (fr1, d2) := FlushPageIfPossible fr d1
    let fr2 := { fr1 with data := 0, page_id := pid, pin_count := 1 }
    (some (pid, f), { s1 with page_table := pt1
                              replacer := r1
                              frames := updF s1.frames f fr2
                              disk := d2 })

/-- `DeletePageImpl` (buffer_pool_manager.cpp:149-180).  Note that on the
not-resident path the `DeallocatePage` call is commented out in the source:
the pool returns `true` without touching the device. -/
def DeletePageImpl (s : BufferPoolManager) (p : Int) : Bool × BufferPoolManager :=
  match ptLookup s.page_table p with
  | none => (true, s)
  | some f =>
    let fr := s.frames f
    if 0 < fr.pin_count then (false, s)
    else
      let d1 := s.disk.DeallocatePage p
      let fr1 : Frame := { page_id := -1, is_dirty := false, pin_count := 0, data := 0 }
      (true, { s with disk := d1
                      frames := updF s.frames f fr1
                      replacer := s.replacer.Pin f
                      page_table := ptErase s.page_table p
                      free_list := s.free_list ++ [f] })

/-- `FlushAllPagesImpl` (buffer_pool_manager.cpp:182-188): flush every key
of the page table (flushing never modifies the page table, so iterating the
entry snapshot is the source's loop). -/
def FlushAllPagesImpl (s : BufferPoolManager) : BufferPoolManager :=
  (s.page_table.map Prod.fst).foldl (fun acc p => (acc.flushPageWithoutLock p).2) s

end BufferPoolManager

/-- One buffer-pool entry point with its arguments.  `fetch` takes a `Nat`
page id: page identifiers are assigned by the block device and are
non-negative; the sentinel `-1` means "no page" and is never fetched. -/
inductive PoolAction where
  | fetch (p : Nat)
  | new
  | unpin (p : Int) (is_dirty : Bool)
  | flush (p : Int)
  | flushAll
  | delete (p : Int)

/-- The pool state after running one entry point. -/
def poolStep (s : BufferPoolManager) : PoolAction → BufferPoolManager
  | .fetch p => (s.FetchPageImpl (Int.ofNat p)).2
  | .new => s.NewPageImpl.2
  | .unpin p d => (s.UnpinPageImpl p d).2
  | .flush p => (s.FlushPageImpl p).2
  | .flushAll => s.FlushAllPagesImpl
  | .delete p => (s.DeletePageImpl p).2

/-- Pool states reachable from a freshly constructed pool by any sequence of
entry-point calls. -/
inductive PoolReachable : BufferPoolManager → Prop
  | init (n : Nat) (d : DiskManager) : PoolReachable (BufferPoolManager.mk' n d)
  | step {s : BufferPoolManager} (h : PoolReachable s) (a : PoolAction) :
      PoolReachable (poolStep s a)

/-! ## B+ tree pages

Both page kinds hold a fixed physical entry array; only the first `size`
slots are meaningful, the rest hold residual bytes.  The array is modelled
as a total function `Nat → entry` so that reads past `size` — which the
source does perform — are well-defined reads of arbitrary residual
content.  The key type is generic over a linear order: the supplied
`KeyComparator` returns `<0 / 0 / >0`, and the source only ever tests
`comparator(a, b) > 0`, `>= 0`, `== 0`, `!= 0`, which translate to `b < a`,
`b ≤ a`, `a = b`, `a ≠ b`.  The internal page's value type is always
`page_id_t` (see the explicit template instantiations), modelled as `Int`;
the leaf's value type (`RID`) is an opaque parameter. -/

/-- Pointwise update of an entry array. -/
def updArr {α : Type} (a : Nat → α) (i : Nat) (x : α) : Nat → α :=
  fun j => if j = i then x else a j

/-- The descending shift loop `for (int i = start; i > stop; i--)
array_[i] = array_[i-1];` shared by `InsertNodeAfter` (stop = index+1),
leaf `Insert` (stop = index) and `CopyFirstFrom` (stop = 0).  Structural
recursion on the loop counter. -/
def shiftRightLoop {α : Type} (stop : Nat) : (Nat → α) → Nat → (Nat → α)
  | a, 0 => a
  | a, i + 1 =>
    if stop < i + 1 then shiftRightLoop stop (updArr a (i + 1) (a i)) i else a

/-- The binary-search loop `while (lo < hi) { mid = (lo+hi)/2; if (p mid)
hi = mid; else lo = mid+1; }` shared by internal `Lookup`
(`p i = (k < key i)`) and leaf `KeyIndex` (`p i = (k ≤ key i)`), run on
fuel `hi - lo` (each iteration strictly shrinks `hi - lo`, so the fuel
suffices; `bsearch_eq` below discharges the fuel bookkeeping). -/
def bsearchAux (p : Nat → Bool) : Nat → Nat → Nat → Nat
  | 0, lo, _ => lo
  | fuel + 1, lo, hi =>
    if lo < hi then
      let mid := (lo + hi) / 2
      if p mid then bsearchAux p fuel lo mid else bsearchAux p fuel (mid + 1) hi
    else lo

/-- Entry point of the binary-search loop. -/
def bsearchLoop (p : Nat → Bool) (lo hi : Nat) : Nat :=
  bsearchAux p (hi - lo) lo hi

/-! ### Internal pages (`b_plus_tree_internal_page.cpp`) -/

/-- `BPlusTreeInternalPage`: header fields relevant to the page-local
algorithms plus the entry array of `(key, child page id)` pairs.  Slot 0's
key is a dummy. -/
structure BPlusTreeInternalPage (K : Type) where
  size : Nat
  max_size : Nat
  array : Nat → K × Int

namespace BPlusTreeInternalPage

variable {K : Type} [LinearOrder K]

/-- The meaningful entries, `array[0..size)`. -/
def entries (pg : BPlusTreeInternalPage K) : List (K × Int) :=
  (List.range pg.size).map pg.array

/-- The linear scan of `ValueIndex` (b_plus_tree_internal_page.cpp:62-70)
from index `size - fuel` with `fuel` slots left; returns `-1` on failure. -/
def ValueIndexAux (arr : Nat → K × Int) (v : Int) : Nat → Nat → Int
  | _, 0 => -1
  | i, fuel + 1 => if (arr i).2 = v then Int.ofNat i else ValueIndexAux arr v (i + 1) fuel

/-- `ValueIndex(value)` (b_plus_tree_internal_page.cpp:62-70): first index
in `[0, size)` whose child equals `value`, or `-1`. -/
def ValueIndex (pg : BPlusTreeInternalPage K) (v : Int) : Int :=
  ValueIndexAux pg.array v 0 pg.size

/-- `Lookup(key, comparator)` (b_plus_tree_internal_page.cpp:87-103):
binary search with `lo = 1`, `hi = size - 1`, descending on
`comparator(array_[mid].first, key) > 0`, i.e. `k < key mid`; then return
`array_[lo-1].second` or `array_[lo].second` according to the final
comparison. -/
def Lookup (pg : BPlusTreeInternalPage K) (k : K) : Int :=
  let lo := bsearchLoop (fun i => decide (k < (pg.array i).1)) 1 (pg.size - 1)
  if k < (pg.array lo).1 then (pg.array (lo - 1)).2 else (pg.array lo).2

/-- `InsertNodeAfter(old_value, new_key, new_value)`
(b_plus_tree_internal_page.cpp:127-142): find `index = ValueIndex(old_value)`
(the `assert(index != -1)` is modelled as `none`); shift
`array_[index+2 .. size]` right by one; then write the new pair at
`array_[index]` — the source writes at `index`, not `index + 1`; increment
the size and return it. -/
def InsertNodeAfter (pg : BPlusTreeInternalPage K) (old_value : Int) (new_key : K)
    (new_value : Int) : Option (BPlusTreeInternalPage K × Int) :=
  match ValueIndex pg old_value with
  | .negSucc _ => none
  | .ofNat index =>
    let size := pg.size
    let a1 := shiftRightLoop (index + 1) pg.array size
    let a2 := updArr a1 index (new_key, new_value)
    some ({ pg with array := a2, size := size + 1 }, Int.ofNat (size + 1))

end BPlusTreeInternalPage

/-! ### Leaf pages (`b_plus_tree_leaf_page.cpp`) -/

/-- `BPlusTreeLeafPage`: header fields relevant to the page-local
algorithms, the sibling pointer, and the entry array of `(key, RID)`
pairs. -/
structure BPlusTreeLeafPage (K V : Type) where
  size : Nat
  max_size : Nat
  next_page_id : Int
  array : Nat → K × V

namespace BPlusTreeLeafPage

variable {K V : Type} [LinearOrder K]

/-- The meaningful entries, `array[0..size)`. -/
def entries (pg : BPlusTreeLeafPage K V) : List (K × V) :=
  (List.range pg.size).map pg.array

/-- `KeyIndex(key, comparator)` (b_plus_tree_leaf_page.cpp:54-67): binary
search with `lo = 0`, `hi = size - 1`, descending on
`comparator(array_[mid].first, key) >= 0`, i.e. `k ≤ key mid`; then return
`lo` or `lo + 1` according to the final comparison. -/
def KeyIndex (pg : BPlusTreeLeafPage K V) (k : K) : Nat :=
  let lo := bsearchLoop (fun i => decide (k ≤ (pg.array i).1)) 0 (pg.size - 1)
  if k ≤ (pg.array lo).1 then lo else lo + 1

/-- The copy loop of `CopyNFrom` (b_plus_tree_leaf_page.cpp:131-140):
`for (int i = 0; i < size; i++) array_[i + original_size] = items[size];` —
note the source reads `items[size]` (the count parameter), not `items[i]`.
`c` counts the remaining iterations. -/
def CopyNFromLoop (items : Nat → K × V) (n orig : Nat) :
    Nat → Nat → (Nat → K × V) → (Nat → K × V)
  | _, 0, a => a
  | i, c + 1, a => CopyNFromLoop items n orig (i + 1) c (updArr a (i + orig) (items n))

/-- `CopyNFrom(items, size)` (b_plus_tree_leaf_page.cpp:131-140): run the
copy loop, then `IncreaseSize(size)`.  `items` is a raw entry pointer,
modelled as a total index function. -/
def CopyNFrom (pg : BPlusTreeLeafPage K V) (items : Nat → K × V) (n : Nat) :
    BPlusTreeLeafPage K V :=
  { pg with array := CopyNFromLoop items n pg.size 0 n pg.array, size := pg.size + n }

/-- `CopyFirstFrom(item)` (b_plus_tree_leaf_page.cpp:253-261): shift
`array_[1 .. size]` right by one, write `item` at slot 0, increment the
size. -/
def CopyFirstFrom (pg : BPlusTreeLeafPage K V) (item : K × V) : BPlusTreeLeafPage K V :=
  { pg with array := updArr (shiftRightLoop 0 pg.array pg.size) 0 item
            size := pg.size + 1 }

/-- `MoveLastToFrontOf(recipient)` (b_plus_tree_leaf_page.cpp:240-247): the
source takes `item = array_[0]` — slot 0, not slot `size - 1` — decrements
this page's size, and prepends `item` to the recipient. -/
def MoveLastToFrontOf (pg recipient : BPlusTreeLeafPage K V) :
    BPlusTreeLeafPage K V × BPlusTreeLeafPage K V :=
  let item := pg.array 0
  ({ pg with size := pg.size - 1 }, recipient.CopyFirstFrom item)

end BPlusTreeLeafPage

/-! ## Page-table lemmas: the association list has map semantics -/

theorem ptLookup_erase (pt : List (Int × Nat)) (q p : Int) :
    ptLookup (ptErase pt q) p = if p = q then none else ptLookup pt p := by
  induction pt with
  | nil => simp [ptErase, ptLookup]
  | cons e rest ih =>
    by_cases he : e.1 = q
    · have h1 : ptErase (e :: rest) q = ptErase rest q := by
        simp [ptErase, List.filter_cons, he]
      rw [h1, ih]
      by_cases hp : p = q
      · simp [hp]
      · have hep : ¬ e.1 = p := by rw [he]; exact fun hh => hp hh.symm
        simp only [ptLookup, if_neg hp, if_neg hep]
    · have h1 : ptErase (e :: rest) q = e :: ptErase rest q := by
        simp [ptErase, List.filter_cons, he]
      rw [h1]
      simp only [ptLookup]
      rw [ih]
      by_cases hep : e.1 = p
      · have hpq : ¬ p = q := fun h => he (hep.trans h)
        simp [hep, hpq]
      · simp [hep]

theorem ptLookup_insert (pt : List (Int × Nat)) (q : Int) (f : Nat) (p : Int) :
    ptLookup (ptInsert pt q f) p = if p = q then some f else ptLookup pt p := by
  by_cases hp : p = q
  · simp [ptInsert, ptLookup, hp]
  · have h2 : ¬ q = p := fun h => hp h.symm
    simp [ptInsert, ptLookup, hp, h2, ptLookup_erase]

/-! ## Small list facts used by the replacer proofs -/

theorem getLast?_mem {l : List Nat} {a : Nat} (h : l.getLast? = some a) : a ∈ l := by
  obtain ⟨hne, rfl⟩ := List.mem_getLast?_eq_getLast h
  exact List.getLast_mem hne

theorem getLast?_not_mem_dropLast {l : List Nat} {a : Nat} (hnd : l.Nodup)
    (h : l.getLast? = some a) : a ∉ l.dropLast := by
  obtain ⟨hne, rfl⟩ := List.mem_getLast?_eq_getLast h
  have hsplit := List.dropLast_append_getLast hne
  rw [← hsplit] at hnd
  rcases List.nodup_append.mp hnd with ⟨-, -, hdisj⟩
  intro hmem
  exact hdisj hmem (List.mem_singleton.mpr rfl)

/-! ## The buffer pool invariant

The inductive invariant behind claim C8.  `pin_zero` is the claimed
property; the other components are the bookkeeping facts needed to push it
through every entry point: the page table is consistent with the frame
metadata and only holds device-assigned (non-negative) keys and in-range
frames; free frames hold the invalid identifier and each frame appears in
the free list at most once; the replacer's candidates are duplicate-free,
in range, unpinned and never simultaneously free. -/

structure PoolInv (s : BufferPoolManager) : Prop where
  pt_frame : ∀ p f, ptLookup s.page_table p = some f →
    f < s.pool_size ∧ (s.frames f).page_id = p
  pt_key_nonneg : ∀ p f, ptLookup s.page_table p = some f → 0 ≤ p
  free_lt : ∀ f ∈ s.free_list, f < s.pool_size
  free_invalid : ∀ f ∈ s.free_list, (s.frames f).page_id = -1
  free_nodup : s.free_list.Nodup
  nodes_nodup : s.replacer.nodes.Nodup
  nodes_lt : ∀ f ∈ s.replacer.nodes, f < s.pool_size
  pin_zero : ∀ f ∈ s.replacer.nodes, (s.frames f).pin_count = 0
  nodes_not_free : ∀ f ∈ s.replacer.nodes, f ∉ s.free_list

theorem poolInv_init (n : Nat) (d : DiskManager) : PoolInv (BufferPoolManager.mk' n d) := by
  constructor <;>
    simp [BufferPoolManager.mk', ptLookup, List.nodup_range n, List.mem_range, Frame.init]

/-- `PoolInv` only depends on the page table, free list, replacer and the
`page_id`/`pin_count` projections of the frames. -/
theorem poolInv_of_projections (t s : BufferPoolManager)
    (h1 : t.pool_size = s.pool_size) (h2 : t.page_table = s.page_table)
    (h3 : t.free_list = s.free_list) (h4 : t.replacer = s.replacer)
    (h5 : ∀ g, (t.frames g).page_id = (s.frames g).page_id)
    (h6 : ∀ g, (t.frames g).pin_count = (s.frames g).pin_count)
    (h : PoolInv s) : PoolInv t := by
  constructor
  · intro p f hf
    rw [h2] at hf
    rw [h1, h5]
    exact h.pt_frame p f hf
  · intro p f hf
    rw [h2] at hf
    exact h.pt_key_nonneg p f hf
  · intro f hf
    rw [h3] at hf
    rw [h1]
    exact h.free_lt f hf
  · intro f hf
    rw [h3] at hf
    rw [h5]
    exact h.free_invalid f hf
  · rw [h3]
    exact h.free_nodup
  · rw [h4]
    exact h.nodes_nodup
  · intro f hf
    rw [h4] at hf
    rw [h1]
    exact h.nodes_lt f hf
  · intro f hf
    rw [h4] at hf
    rw [h6]
    exact h.pin_zero f hf
  · intro f hf
    rw [h4] at hf
    rw [h3]
    exact h.nodes_not_free f hf

/-- `flushPageWithoutLock` only touches dirty flags, buffers and the disk. -/
theorem flushPW_state (s : BufferPoolManager) (p : Int) :
    ((s.flushPageWithoutLock p).2.pool_size = s.pool_size) ∧
    ((s.flushPageWithoutLock p).2.page_table = s.page_table) ∧
    ((s.flushPageWithoutLock p).2.free_list = s.free_list) ∧
    ((s.flushPageWithoutLock p).2.replacer = s.replacer) ∧
    (∀ g, ((s.flushPageWithoutLock p).2.frames g).page_id = (s.frames g).page_id) ∧
    (∀ g, ((s.flushPageWithoutLock p).2.frames g).pin_count = (s.frames g).pin_count) := by
  unfold BufferPoolManager.flushPageWithoutLock
  cases hl : ptLookup s.page_table p with
  | none => simp
  | some f =>
    unfold BufferPoolManager.FlushPageIfPossible
    by_cases hd : (s.frames f).is_dirty <;>
      refine ⟨rfl, rfl, rfl, rfl, fun g => ?_, fun g => ?_⟩ <;>
      by_cases hg : g = f <;>
      simp [hd, updF, hg]

theorem poolInv_flushPW (s : BufferPoolManager) (p : Int) (h : PoolInv s) :
    PoolInv (s.flushPageWithoutLock p).2 := by
  obtain ⟨h1, h2, h3, h4, h5, h6⟩ := flushPW_state s p
  exact poolInv_of_projections _ s h1 h2 h3 h4 h5 h6 h

theorem poolInv_flushAll (s : BufferPoolManager) (h : PoolInv s) :
    PoolInv s.FlushAllPagesImpl := by
  unfold BufferPoolManager.FlushAllPagesImpl
  generalize (s.page_table.map Prod.fst) = ps
  induction ps generalizing s with
  | nil => simpa using h
  | cons q qs ih =>
    simp only [List.foldl_cons]
    exact ih _ (poolInv_flushPW s q h)

theorem poolInv_unpin (s : BufferPoolManager) (p : Int) (d : Bool) (h : PoolInv s) :
    PoolInv (s.UnpinPageImpl p d).2 := by
  unfold BufferPoolManager.UnpinPageImpl
  cases hl : ptLookup s.page_table p with
  | none => exact h
  | some f =>
    obtain ⟨hflt, hfpid⟩ := h.pt_frame p f hl
    have hpge : (0 : Int) ≤ p := h.pt_key_nonneg p f hl
    have hf_not_free : f ∉ s.free_list := by
      intro hmem
      have := h.free_invalid f hmem
      rw [hfpid] at this
      omega
    by_cases hpin : 0 < (s.frames f).pin_count
    · have hf_not_nodes : f ∉ s.replacer.nodes := by
        intro hmem
        have := h.pin_zero f hmem
        omega
      simp only [if_pos hpin]
      constructor
      · intro q g hg
        obtain ⟨h1, h2⟩ := h.pt_frame q g hg
        refine ⟨h1, ?_⟩
        rw [← h2]
        by_cases hgf : g = f <;> simp [updF, hgf]
      · exact h.pt_key_nonneg
      · exact h.free_lt
      · intro g hg
        have hgf : g ≠ f := fun he => hf_not_free (he ▸ hg)
        simp only [updF, if_neg hgf]
        exact h.free_invalid g hg
      · exact h.free_nodup
      · by_cases hz : (s.frames f).pin_count - 1 = 0
        · simp only [LRUReplacer.Unpin, hz, if_true, if_neg hf_not_nodes]
          exact List.Nodup.cons hf_not_nodes h.nodes_nodup
        · simp only [hz, if_false]
          exact h.nodes_nodup
      · intro g hg
        by_cases hz : (s.frames f).pin_count - 1 = 0
        · simp only [LRUReplacer.Unpin, hz, if_true, if_neg hf_not_nodes] at hg
          rcases List.mem_cons.mp hg with rfl | hg'
          · exact hflt
          · exact h.nodes_lt g hg'
        · simp only [hz, if_false] at hg
          exact h.nodes_lt g hg
      · intro g hg
        by_cases hz : (s.frames f).pin_count - 1 = 0
        · simp only [LRUReplacer.Unpin, hz, if_true, if_neg hf_not_nodes] at hg
          rcases List.mem_cons.mp hg with rfl | hg'
          · simp [updF, hz]
          · have hgf : g ≠ f := fun he => hf_not_nodes (he ▸ hg')
            simp only [updF, if_neg hgf]
            exact h.pin_zero g hg'
        · simp only [hz, if_false] at hg
          have hgf : g ≠ f := fun he => hf_not_nodes (he ▸ hg)
          simp only [updF, if_neg hgf]
          exact h.pin_zero g hg
      · intro g hg
        by_cases hz : (s.frames f).pin_count - 1 = 0
        · simp only [LRUReplacer.Unpin, hz, if_true, if_neg hf_not_nodes] at hg
          rcases List.mem_cons.mp hg with rfl | hg'
          · exact hf_not_free
          · exact h.nodes_not_free g hg'
        · simp only [hz, if_false] at hg
          exact h.nodes_not_free g hg
    · simp only [if_neg hpin]
      exact h

theorem poolInv_delete (s : BufferPoolManager) (p : Int) (h : PoolInv s) :
    PoolInv (s.DeletePageImpl p).2 := by
  unfold BufferPoolManager.DeletePageImpl
  cases hl : ptLookup s.page_table p with
  | none => exact h
  | some f =>
    obtain ⟨hflt, hfpid⟩ := h.pt_frame p f hl
    have hpge : (0 : Int) ≤ p := h.pt_key_nonneg p f hl
    have hf_not_free : f ∉ s.free_list := by
      intro hmem
      have := h.free_invalid f hmem
      rw [hfpid] at this
      omega
    by_cases hpin : 0 < (s.frames f).pin_count
    · simp only [if_pos hpin]
      exact h
    · simp only [if_neg hpin]
      constructor
      · intro q g hg
        rw [ptLookup_erase] at hg
        by_cases hq : q = p
        · rw [if_pos hq] at hg
          simp at hg
        · rw [if_neg hq] at hg
          obtain ⟨h1, h2⟩ := h.pt_frame q g hg
          have hgf : g ≠ f := by
            intro he
            rw [he, hfpid] at h2
            exact hq h2.symm
          refine ⟨h1, ?_⟩
          simp only [updF, if_neg hgf]
          exact h2
      · intro q g hg
        rw [ptLookup_erase] at hg
        by_cases hq : q = p
        · rw [if_pos hq] at hg
          simp at hg
        · rw [if_neg hq] at hg
          exact h.pt_key_nonneg q g hg
      · intro g hg
        rcases List.mem_append.mp hg with hg' | hg'
        · exact h.free_lt g hg'
        · rw [List.mem_singleton.mp hg']
          exact hflt
      · intro g hg
        rcases List.mem_append.mp hg with hg' | hg'
        · have hgf : g ≠ f := fun he => hf_not_free (he ▸ hg')
          simp only [updF, if_neg hgf]
          exact h.free_invalid g hg'
        · rw [List.mem_singleton.mp hg']
          simp [updF]
      · rw [List.nodup_append]
        refine ⟨h.free_nodup, List.nodup_singleton f, ?_⟩
        intro a ha hb
        rw [List.mem_singleton.mp hb] at ha
        exact hf_not_free ha
      · rw [LRUReplacer.Pin_nodes]
        exact h.nodes_nodup.erase f
      · intro g hg
        rw [LRUReplacer.Pin_nodes] at hg
        exact h.nodes_lt g (List.mem_of_mem_erase hg)
      · intro g hg
        rw [LRUReplacer.Pin_nodes] at hg
        obtain ⟨hgf, hg'⟩ := h.nodes_nodup.mem_erase_iff.mp hg
        simp only [updF, if_neg hgf]
        exact h.pin_zero g hg'
      · intro g hg
        rw [LRUReplacer.Pin_nodes] at hg
        obtain ⟨hgf, hg'⟩ := h.nodes_nodup.mem_erase_iff.mp hg
        intro hmem
        rcases List.mem_append.mp hmem with hh | hh
        · exact h.nodes_not_free g hg' hh
        · exact hgf (List.mem_singleton.mp hh)

/-- Installing a page `pid` into frame `f` (the shared tail of the fetch
miss path and of `NewPageImpl`) preserves the invariant: `f` came from the
free list or was the replacer victim, so it is in range, absent from the
new free list and absent from the new candidate list. -/
theorem poolInv_install (s1 : BufferPoolManager) (h : PoolInv s1) (f : Nat) (pid : Int)
    (fr2 : Frame) (nodes' : List Nat) (d' : DiskManager)
    (hpid : 0 ≤ pid) (hfr_pid : fr2.page_id = pid) (hf_lt : f < s1.pool_size)
    (hfree_ne : ∀ g ∈ s1.free_list, g ≠ f)
    (hsub : ∀ g ∈ nodes', g ∈ s1.replacer.nodes)
    (hnd : nodes'.Nodup)
    (hne : ∀ g ∈ nodes', g ≠ f) :
    PoolInv { s1 with frames := updF s1.frames f fr2
                      page_table := ptInsert (ptErase s1.page_table (s1.frames f).page_id) pid f
                      replacer := ⟨nodes'⟩
                      disk := d' } := by
  constructor
  · intro q g hg
    rw [ptLookup_insert] at hg
    by_cases hq : q = pid
    · rw [if_pos hq] at hg
      cases hg
      refine ⟨hf_lt, ?_⟩
      simp [updF, hfr_pid, hq]
    · rw [if_neg hq, ptLookup_erase] at hg
      by_cases hq2 : q = (s1.frames f).page_id
      · rw [if_pos hq2] at hg
        simp at hg
      · rw [if_neg hq2] at hg
        obtain ⟨h1, h2⟩ := h.pt_frame q g hg
        have hgf : g ≠ f := by
          intro he
          rw [he] at h2
          exact hq2 h2.symm
        refine ⟨h1, ?_⟩
        simp only [updF, if_neg hgf]
        exact h2
  · intro q g hg
    rw [ptLookup_insert] at hg
    by_cases hq : q = pid
    · rw [hq]
      exact hpid
    · rw [if_neg hq, ptLookup_erase] at hg
      by_cases hq2 : q = (s1.frames f).page_id
      · rw [if_pos hq2] at hg
        simp at hg
      · rw [if_neg hq2] at hg
        exact h.pt_key_nonneg q g hg
  · exact h.free_lt
  · intro g hg
    simp only [updF, if_neg (hfree_ne g hg)]
    exact h.free_invalid g hg
  · exact h.free_nodup
  · exact hnd
  · intro g hg
    exact h.nodes_lt g (hsub g hg)
  · intro g hg
    simp only [updF, if_neg (hne g hg)]
    exact h.pin_zero g (hsub g hg)
  · intro g hg
    exact h.nodes_not_free g (hsub g hg)

/-- Popping the free list head preserves the invariant. -/
theorem poolInv_drop_free (s : BufferPoolManager) (f : Nat) (rest : List Nat)
    (hfl : s.free_list = f :: rest) (h : PoolInv s) :
    PoolInv { s with free_list := rest } := by
  have hsub : ∀ g ∈ rest, g ∈ s.free_list := by
    intro g hg
    rw [hfl]
    exact List.mem_cons_of_mem f hg
  constructor
  · exact h.pt_frame
  · exact h.pt_key_nonneg
  · intro g hg
    exact h.free_lt g (hsub g hg)
  · intro g hg
    exact h.free_invalid g (hsub g hg)
  · have := h.free_nodup
    rw [hfl] at this
    exact (List.nodup_cons.mp this).2
  · exact h.nodes_nodup
  · exact h.nodes_lt
  · exact h.pin_zero
  · intro g hg hmem
    exact h.nodes_not_free g hg (hsub g hmem)

/-- Dropping the replacer victim preserves the invariant. -/
theorem poolInv_drop_victim (s : BufferPoolManager) (h : PoolInv s) :
    PoolInv { s with replacer := ⟨s.replacer.nodes.dropLast⟩ } := by
  have hsub : ∀ g ∈ s.replacer.nodes.dropLast, g ∈ s.replacer.nodes := by
    intro g hg
    exact (List.dropLast_sublist s.replacer.nodes).mem hg
  constructor
  · exact h.pt_frame
  · exact h.pt_key_nonneg
  · exact h.free_lt
  · exact h.free_invalid
  · exact h.free_nodup
  · exact h.nodes_nodup.sublist (List.dropLast_sublist s.replacer.nodes)
  · intro g hg
    exact h.nodes_lt g (hsub g hg)
  · intro g hg
    exact h.pin_zero g (hsub g hg)
  · intro g hg
    exact h.nodes_not_free g (hsub g hg)

theorem poolInv_fetch (s : BufferPoolManager) (p : Nat) (h : PoolInv s) :
    PoolInv (s.FetchPageImpl (Int.ofNat p)).2 := by
  unfold BufferPoolManager.FetchPageImpl
  cases hl : ptLookup s.page_table (Int.ofNat p) with
  | some f =>
    dsimp only
    obtain ⟨hflt, hfpid⟩ := h.pt_frame _ f hl
    have hpid_all : ∀ g,
        (updF s.frames f { s.frames f with
          pin_count := (s.frames f).pin_count + 1 } g).page_id = (s.frames g).page_id := by
      intro g
      by_cases hgf : g = f <;> simp [updF, hgf]
    constructor
    · intro q g hg
      obtain ⟨h1, h2⟩ := h.pt_frame q g hg
      exact ⟨h1, (hpid_all g).trans h2⟩
    · exact h.pt_key_nonneg
    · exact h.free_lt
    · intro g hg
      exact (hpid_all g).trans (h.free_invalid g hg)
    · exact h.free_nodup
    · rw [LRUReplacer.Pin_nodes]
      exact h.nodes_nodup.erase f
    · intro g hg
      rw [LRUReplacer.Pin_nodes] at hg
      exact h.nodes_lt g (List.mem_of_mem_erase hg)
    · intro g hg
      rw [LRUReplacer.Pin_nodes] at hg
      obtain ⟨hgf, hg'⟩ := h.nodes_nodup.mem_erase_iff.mp hg
      simp only [updF, if_neg hgf]
      exact h.pin_zero g hg'
    · intro g hg
      rw [LRUReplacer.Pin_nodes] at hg
      exact h.nodes_not_free g (List.mem_of_mem_erase hg)
  | none =>
    dsimp only [BufferPoolManager.FindAvailablePage]
    cases hfl : s.free_list with
    | cons f rest =>
      dsimp only [DiskManager.ReadPage]
      have h1 : PoolInv { s with free_list := rest } := poolInv_drop_free s f rest hfl h
      have hf_free : f ∈ s.free_list := by
        rw [hfl]
        exact List.mem_cons_self f rest
      rcases hFP : BufferPoolManager.FlushPageIfPossible (s.frames f) s.disk with ⟨fr1, d1⟩
      dsimp only
      refine poolInv_install { s with free_list := rest } h1 f (Int.ofNat p) _
        s.replacer.nodes _ (Int.ofNat_nonneg _) rfl (h.free_lt f hf_free) ?_ (fun g hg => hg)
        h.nodes_nodup ?_
      · intro g hg he
        have := h.free_nodup
        rw [hfl] at this
        exact (List.nodup_cons.mp this).1 (he ▸ hg)
      · intro g hg he
        exact h.nodes_not_free g hg (he ▸ hf_free)
    | nil =>
      dsimp only [LRUReplacer.Victim]
      cases hgl : s.replacer.nodes.getLast? with
      | none =>
        dsimp only
        rw [← hfl]
        exact h
      | some v =>
        dsimp only [DiskManager.ReadPage]
        have h1 : PoolInv { s with replacer := ⟨s.replacer.nodes.dropLast⟩ } :=
          poolInv_drop_victim s h
        have hv_mem : v ∈ s.replacer.nodes := getLast?_mem hgl
        rcases hFP : BufferPoolManager.FlushPageIfPossible (s.frames v) s.disk with ⟨fr1, d1⟩
        dsimp only
        rw [← hfl]
        refine poolInv_install { s with replacer := ⟨s.replacer.nodes.dropLast⟩ } h1 v
          (Int.ofNat p) _ s.replacer.nodes.dropLast _ (Int.ofNat_nonneg _) rfl
          (h.nodes_lt v hv_mem) ?_ (fun g hg => hg)
          (h.nodes_nodup.sublist (List.dropLast_sublist _)) ?_
        · intro g hg
          rw [hfl] at hg
          simp at hg
        · intro g hg he
          exact getLast?_not_mem_dropLast h.nodes_nodup hgl (he ▸ hg)

theorem poolInv_new (s : BufferPoolManager) (h : PoolInv s) :
    PoolInv s.NewPageImpl.2 := by
  unfold BufferPoolManager.NewPageImpl
  dsimp only [BufferPoolManager.FindAvailablePage]
  cases hfl : s.free_list with
  | cons f rest =>
    dsimp only [DiskManager.AllocatePage]
    have h1 : PoolInv { s with free_list := rest } := poolInv_drop_free s f rest hfl h
    have hf_free : f ∈ s.free_list := by
      rw [hfl]
      exact List.mem_cons_self f rest
    rcases hFP : BufferPoolManager.FlushPageIfPossible (s.frames f)
        { s.disk with nextPage := s.disk.nextPage + 1 } with ⟨fr1, d1⟩
    dsimp only
    have hne_nodes : ∀ g ∈ (s.replacer.Pin f).nodes, g ≠ f := by
      intro g hg
      rw [LRUReplacer.Pin_nodes] at hg
      exact (h.nodes_nodup.mem_erase_iff.mp hg).1
    refine poolInv_install { s with free_list := rest } h1 f
      (Int.ofNat s.disk.nextPage) _ (s.replacer.Pin f).nodes _ (Int.ofNat_nonneg _) rfl
      (h.free_lt f hf_free) ?_ ?_ ?_ hne_nodes
    · intro g hg he
      have := h.free_nodup
      rw [hfl] at this
      exact (List.nodup_cons.mp this).1 (he ▸ hg)
    · intro g hg
      rw [LRUReplacer.Pin_nodes] at hg
      exact List.mem_of_mem_erase hg
    · rw [LRUReplacer.Pin_nodes]
      exact h.nodes_nodup.erase f
  | nil =>
    dsimp only [LRUReplacer.Victim]
    cases hgl : s.replacer.nodes.getLast? with
    | none =>
      dsimp only
      rw [← hfl]
      exact h
    | some v =>
      dsimp only [DiskManager.AllocatePage]
      have h1 : PoolInv { s with replacer := ⟨s.replacer.nodes.dropLast⟩ } :=
        poolInv_drop_victim s h
      have hv_mem : v ∈ s.replacer.nodes := getLast?_mem hgl
      have hnd' : s.replacer.nodes.dropLast.Nodup :=
        h.nodes_nodup.sublist (List.dropLast_sublist _)
      rcases hFP : BufferPoolManager.FlushPageIfPossible (s.frames v)
          { s.disk with nextPage := s.disk.nextPage + 1 } with ⟨fr1, d1⟩
      dsimp only
      rw [← hfl]
      have hne_nodes : ∀ g ∈ (LRUReplacer.Pin ⟨s.replacer.nodes.dropLast⟩ v).nodes, g ≠ v := by
        intro g hg
        rw [LRUReplacer.Pin_nodes] at hg
        exact (hnd'.mem_erase_iff.mp hg).1
      refine poolInv_install { s with replacer := ⟨s.replacer.nodes.dropLast⟩ } h1 v
        (Int.ofNat s.disk.nextPage) _ (LRUReplacer.Pin ⟨s.replacer.nodes.dropLast⟩ v).nodes _
        (Int.ofNat_nonneg _) rfl (h.nodes_lt v hv_mem) ?_ ?_ ?_ hne_nodes
      · intro g hg
        rw [hfl] at hg
        simp at hg
      · intro g hg
        rw [LRUReplacer.Pin_nodes] at hg
        exact List.mem_of_mem_erase hg
      · rw [LRUReplacer.Pin_nodes]
        exact hnd'.erase v

/-- Every reachable pool state satisfies the invariant. -/
theorem poolInv_reachable {s : BufferPoolManager} (h : PoolReachable s) : PoolInv s := by
  induction h with
  | init n d => exact poolInv_init n d
  | step h a ih =>
    cases a with
    | fetch p => exact poolInv_fetch _ p ih
    | new => exact poolInv_new _ ih
    | unpin p d => exact poolInv_unpin _ p d ih
    | flush p => exact poolInv_flushPW _ p ih
    | flushAll => exact poolInv_flushAll _ ih
    | delete p => exact poolInv_delete _ p ih

/-- C8: in every pool state reachable from a fresh pool by any sequence of
FetchPage, NewPage, UnpinPage, FlushPage, FlushAllPages and DeletePage
calls, every frame identifier in the replacer's candidate sequence refers
to a frame with `pin_count = 0`; consequently a victim frame returned by
the replacer during eviction never has a positive pin count. -/
theorem C8_replacer_frames_unpinned (s : BufferPoolManager) (h : PoolReachable s) :
    (∀ f ∈ s.replacer.nodes, (s.frames f).pin_count = 0) ∧
    (∀ f r', s.replacer.Victim = (some f, r') → (s.frames f).pin_count = 0) := by
  have hInv := poolInv_reachable h
  refine ⟨hInv.pin_zero, ?_⟩
  intro f r' hv
  unfold LRUReplacer.Victim at hv
  cases hgl : s.replacer.nodes.getLast? with
  | none =>
    rw [hgl] at hv
    cases hv
  | some v =>
    rw [hgl] at hv
    injection hv with h1 h2
    injection h1 with h1
    subst h1
    exact hInv.pin_zero v (getLast?_mem hgl)

/-- A block device with blank logs, used to build concrete pools. -/
def blankDisk : DiskManager := ⟨fun _ => 0, [], [], [], 0⟩

/-- A concrete reachable state with a non-empty candidate sequence: fetch
page 0 into a 2-frame pool, then unpin it. -/
def c8state : BufferPoolManager :=
  poolStep (poolStep (BufferPoolManager.mk' 2 blankDisk) (.fetch 0)) (.unpin 0 false)

theorem C8_replacer_frames_unpinned_witness : (c8state.frames 0).pin_count = 0 :=
  (C8_replacer_frames_unpinned c8state
      (PoolReachable.step
        (PoolReachable.step (PoolReachable.init 2 blankDisk) (.fetch 0))
        (.unpin 0 false))).1
    0 (by decide)

/-- C9: `Unpin` of a frame already in the candidate sequence is a no-op
(the sequence, positions included, is unchanged), and starting from an
empty replacer, after `Unpin a; Unpin b; Unpin c` with distinct frames and
no intervening `Pin`, the next three `Victim` calls succeed and return
`a`, `b`, `c` in that order. -/
theorem C9_lru_unpin_victim :
    (∀ (r : LRUReplacer) (f : Nat), f ∈ r.nodes → r.Unpin f = r) ∧
    (∀ a b c : Nat, a ≠ b → a ≠ c → b ≠ c →
      ((((⟨[]⟩ : LRUReplacer).Unpin a).Unpin b).Unpin c).Victim.1 = some a ∧
      (((((⟨[]⟩ : LRUReplacer).Unpin a).Unpin b).Unpin c).Victim.2).Victim.1 = some b ∧
      ((((((⟨[]⟩ : LRUReplacer).Unpin a).Unpin b).Unpin c).Victim.2).Victim.2).Victim.1
        = some c) := by
  constructor
  · intro r f hf
    unfold LRUReplacer.Unpin
    rw [if_pos hf]
  · intro a b c hab hac hbc
    have h1 : (⟨[]⟩ : LRUReplacer).Unpin a = ⟨[a]⟩ := by
      simp [LRUReplacer.Unpin]
    have h2 : (⟨[a]⟩ : LRUReplacer).Unpin b = ⟨[b, a]⟩ := by
      simp [LRUReplacer.Unpin, Ne.symm hab]
    have h3 : (⟨[b, a]⟩ : LRUReplacer).Unpin c = ⟨[c, b, a]⟩ := by
      simp [LRUReplacer.Unpin, Ne.symm hac, Ne.symm hbc]
    rw [h1, h2, h3]
    exact ⟨rfl, rfl, rfl⟩

theorem C9_lru_unpin_victim_witness :
    ((⟨[5]⟩ : LRUReplacer).Unpin 5 = ⟨[5]⟩) ∧
    ((((⟨[]⟩ : LRUReplacer).Unpin 0).Unpin 1).Unpin 2).Victim.1 = some 0 :=
  ⟨C9_lru_unpin_victim.1 ⟨[5]⟩ 5 (by decide),
   (C9_lru_unpin_victim.2 0 1 2 (by decide) (by decide) (by decide)).1⟩

/-- C10: on a fetch hit — page `p` resident at frame `F` — the only pool
state changes are that `F`'s pin count increases by one and `F` leaves the
replacer's candidate sequence (if present): the frame's buffer, dirty flag
and page identifier, every other frame, the page table, the free list and
the whole block device state (its call logs included, so no disk I/O
happens) are unchanged, and the call returns frame `F`. -/
theorem C10_fetch_hit_effects (s : BufferPoolManager) (p : Int) (F : Nat)
    (h : ptLookup s.page_table p = some F) :
    (s.FetchPageImpl p).1 = some F ∧
    ((s.FetchPageImpl p).2.frames F).pin_count = (s.frames F).pin_count + 1 ∧
    ((s.FetchPageImpl p).2.frames F).data = (s.frames F).data ∧
    ((s.FetchPageImpl p).2.frames F).is_dirty = (s.frames F).is_dirty ∧
    ((s.FetchPageImpl p).2.frames F).page_id = (s.frames F).page_id ∧
    (∀ g, g ≠ F → (s.FetchPageImpl p).2.frames g = s.frames g) ∧
    (s.FetchPageImpl p).2.replacer.nodes = s.replacer.nodes.erase F ∧
    (s.FetchPageImpl p).2.page_table = s.page_table ∧
    (s.FetchPageImpl p).2.free_list = s.free_list ∧
    (s.FetchPageImpl p).2.disk = s.disk := by
  unfold BufferPoolManager.FetchPageImpl
  rw [h]
  dsimp only
  refine ⟨rfl, ?_, ?_, ?_, ?_, ?_, LRUReplacer.Pin_nodes s.replacer F, rfl, rfl, rfl⟩
  · simp [updF]
  · simp [updF]
  · simp [updF]
  · simp [updF]
  · intro g hg
    simp [updF, hg]

/-- A concrete pool with page 0 resident and pinned in frame 0. -/
def c10state : BufferPoolManager :=
  { pool_size := 1
    frames := fun _ => ⟨0, 1, false, 7⟩
    page_table := [(0, 0)]
    free_list := []
    replacer := ⟨[]⟩
    disk := blankDisk }

theorem C10_fetch_hit_effects_witness :
    ((c10state.FetchPageImpl 0).2.frames 0).pin_count = (c10state.frames 0).pin_count + 1 ∧
    (c10state.FetchPageImpl 0).2.disk = c10state.disk :=
  ⟨(C10_fetch_hit_effects c10state 0 0 rfl).2.1,
   (C10_fetch_hit_effects c10state 0 0 rfl).2.2.2.2.2.2.2.2.2⟩

/-- A 1-frame pool fresh from the constructor (nothing resident). -/
def c4state : BufferPoolManager := BufferPoolManager.mk' 1 blankDisk

/-- C4 counterexample: in a concrete pool where page 3 is not resident,
`DeletePage(3)` returns true but the device's deallocation log stays
empty — contrary to the claim, the identifier is not deallocated on the
block device (the `DeallocatePage` call on this path is commented out). -/
theorem C4_counterexample :
    ptLookup c4state.page_table 3 = none ∧
    (c4state.DeletePageImpl 3).1 = true ∧
    (c4state.DeletePageImpl 3).2.disk.deallocated = [] :=
  ⟨rfl, rfl, rfl⟩

/-- C4 (amended): `DeletePage` on a non-resident page returns true and
leaves the whole pool state — the block device included — unchanged; no
deallocation happens. -/
theorem C4_delete_nonresident (s : BufferPoolManager) (p : Int)
    (h : ptLookup s.page_table p = none) :
    s.DeletePageImpl p = (true, s) := by
  unfold BufferPoolManager.DeletePageImpl
  rw [h]

theorem C4_delete_nonresident_witness : c4state.DeletePageImpl 3 = (true, c4state) :=
  C4_delete_nonresident c4state 3 rfl

/-- A concrete pool: page 3 resident in frame 0, pin count 0, dirty. -/
def c5state : BufferPoolManager :=
  { pool_size := 1
    frames := fun _ => ⟨3, 0, true, 42⟩
    page_table := [(3, 0)]
    free_list := []
    replacer := ⟨[0]⟩
    disk := blankDisk }

/-- C5 counterexample: page 3 is resident with pin count 0 and the dirty
flag set; `DeletePage(3)` succeeds, yet the device's write log stays
empty — the dirty buffer is never written back before the frame is reset
and recycled, contrary to the claim. -/
theorem C5_counterexample :
    ptLookup c5state.page_table 3 = some 0 ∧
    (c5state.frames 0).pin_count = 0 ∧
    (c5state.frames 0).is_dirty = true ∧
    (c5state.DeletePageImpl 3).1 = true ∧
    (c5state.DeletePageImpl 3).2.disk.writes = [] :=
  ⟨rfl, rfl, rfl, rfl, rfl⟩

/-- C5 (amended): `DeletePage` on a resident page with pin count zero
performs no write-back at all (the device write log is unchanged, dirty or
not); it deallocates the identifier, resets the frame to the invalid
blank state, removes the page-table entry and the replacer candidate, and
appends the frame to the free list. -/
theorem C5_delete_discards_dirty (s : BufferPoolManager) (p : Int) (f : Nat)
    (h : ptLookup s.page_table p = some f) (hpin : (s.frames f).pin_count = 0) :
    (s.DeletePageImpl p).1 = true ∧
    (s.DeletePageImpl p).2.disk.writes = s.disk.writes ∧
    (s.DeletePageImpl p).2.disk.deallocated = p :: s.disk.deallocated ∧
    (s.DeletePageImpl p).2.frames = updF s.frames f ⟨-1, 0, false, 0⟩ ∧
    (s.DeletePageImpl p).2.page_table = ptErase s.page_table p ∧
    (s.DeletePageImpl p).2.replacer = s.replacer.Pin f ∧
    (s.DeletePageImpl p).2.free_list = s.free_list ++ [f] := by
  unfold BufferPoolManager.DeletePageImpl
  rw [h]
  dsimp only
  rw [if_neg (by omega)]
  exact ⟨rfl, rfl, rfl, rfl, rfl, rfl, rfl⟩

theorem C5_delete_discards_dirty_witness :
    (c5state.DeletePageImpl 3).1 = true ∧
    (c5state.DeletePageImpl 3).2.disk.writes = c5state.disk.writes :=
  ⟨(C5_delete_discards_dirty c5state 3 0 rfl rfl).1,
   (C5_delete_discards_dirty c5state 3 0 rfl rfl).2.1⟩

/-- The C1 failing input: an internal page with entries
[(0, child 7), (9, child 9)], size 2 (residual slots zero). -/
def c1page : BPlusTreeInternalPage Int :=
  ⟨2, 4, fun i => if i = 0 then (0, 7) else if i = 1 then (9, 9) else (0, 0)⟩

/-- C1: `InsertNodeAfter` writes the new pair at `array_[index]` instead of
`array_[index + 1]` (b_plus_tree_internal_page.cpp:137-138).  Inserting
(5, 8) after the entry with child 7 on the page [(0, 7), (9, 9)] yields
entries [(5, 8), (9, 9), (9, 9)] — the old-child entry at index 0 is
overwritten and the shifted entry is duplicated — instead of the claimed
[(0, 7), (5, 8), (9, 9)]; only the returned size 3 matches the claim. -/
theorem C1_insertNodeAfter_bug :
    (c1page.InsertNodeAfter 7 5 8).map (fun r => (r.1.entries, r.2))
      = some ([(5, 8), (9, 9), (9, 9)], 3) ∧
    ([((5 : Int), (8 : Int)), (9, 9), (9, 9)] : List (Int × Int))
      ≠ [(0, 7), (5, 8), (9, 9)] :=
  ⟨by decide, by decide⟩

/-- The C2 failing input: leaves A = [(1, 10), (2, 20)] and B = [(5, 50)]. -/
def c2pageA : BPlusTreeLeafPage Int Int :=
  ⟨2, 4, -1, fun i => if i = 0 then (1, 10) else if i = 1 then (2, 20) else (0, 0)⟩

def c2pageB : BPlusTreeLeafPage Int Int :=
  ⟨1, 4, -1, fun i => if i = 0 then (5, 50) else (0, 0)⟩

/-- C2: leaf `MoveLastToFrontOf` reads `array_[0]` — the first pair, not
the last (b_plus_tree_leaf_page.cpp:244).  With A = [(1,10), (2,20)] and
B = [(5,50)], A does end as [(1,10)] (its size is decremented, dropping
(2,20)), but the pair prepended to B is A's first pair: B becomes
[(1,10), (5,50)] instead of the claimed [(2,20), (5,50)].  The combined
multiset of pairs is not preserved — (2,20) is lost, (1,10) duplicated. -/
theorem C2_moveLastToFrontOf_bug :
    (c2pageA.MoveLastToFrontOf c2pageB).1.entries = [(1, 10)] ∧
    (c2pageA.MoveLastToFrontOf c2pageB).2.entries = [(1, 10), (5, 50)] ∧
    ([((1 : Int), (10 : Int)), (5, 50)] : List (Int × Int)) ≠ [(2, 20), (5, 50)] :=
  ⟨by decide, by decide, by decide⟩

/-- The C3 failing input: an empty leaf and the source array
items = [(0,0), (1,10), (2,20), ...]. -/
def c3page : BPlusTreeLeafPage Int Int := ⟨0, 4, -1, fun _ => (99, 99)⟩

def c3items : Nat → Int × Int := fun i => (Int.ofNat i, Int.ofNat (10 * i))

/-- C3: leaf `CopyNFrom` copies `items[size]` — the count parameter — on
every iteration instead of `items[i]` (b_plus_tree_leaf_page.cpp:137).
`CopyNFrom(items, 2)` on an empty leaf appends items[2] = (2,20) twice,
yielding [(2,20), (2,20)] instead of the claimed items[0], items[1] =
[(0,0), (1,10)]; the size increase by n is the only part that matches. -/
theorem C3_copyNFrom_bug :
    (c3page.CopyNFrom c3items 2).entries = [(2, 20), (2, 20)] ∧
    (c3page.CopyNFrom c3items 2).size = c3page.size + 2 ∧
    ([((2 : Int), (20 : Int)), (2, 20)] : List (Int × Int)) ≠ [(0, 0), (1, 10)] :=
  ⟨by decide, by decide, by decide⟩

/-- Correctness of the shared binary-search loop on fuel: for a predicate
monotone on `[lo, hi]` and fuel at least `hi - lo`, the loop lands on an
index `l ∈ [lo, hi]` such that `p` is false on all of `[lo, l)` and true
at `l` unless `l = hi`. -/
theorem bsearchAux_spec (p : Nat → Bool) :
    ∀ fuel lo hi : Nat, hi - lo ≤ fuel → lo ≤ hi →
    (∀ i j, lo ≤ i → i ≤ j → j ≤ hi → p i = true → p j = true) →
    lo ≤ bsearchAux p fuel lo hi ∧ bsearchAux p fuel lo hi ≤ hi ∧
    (∀ j, lo ≤ j → j < bsearchAux p fuel lo hi → p j = false) ∧
    (bsearchAux p fuel lo hi < hi → p (bsearchAux p fuel lo hi) = true) := by
  intro fuel
  induction fuel with
  | zero =>
    intro lo hi hfuel hle hmono
    have heq : lo = hi := by omega
    subst heq
    simp only [bsearchAux]
    exact ⟨le_refl lo, le_refl lo,
      fun j hj hjl => absurd (lt_of_le_of_lt hj hjl) (lt_irrefl lo),
      fun hlt => absurd hlt (lt_irrefl lo)⟩
  | succ n ih =>
    intro lo hi hfuel hle hmono
    by_cases hlh : lo < hi
    · simp only [bsearchAux, if_pos hlh]
      have hmid_ge : lo ≤ (lo + hi) / 2 := by omega
      have hmid_lt : (lo + hi) / 2 < hi := by omega
      by_cases hp : p ((lo + hi) / 2) = true
      · rw [if_pos hp]
        obtain ⟨h1, h2, h3, h4⟩ := ih lo ((lo + hi) / 2) (by omega) (by omega)
          (fun i j hi1 hij hj1 => hmono i j hi1 hij (by omega))
        refine ⟨h1, by omega, h3, fun _ => ?_⟩
        by_cases heq : bsearchAux p n lo ((lo + hi) / 2) = (lo + hi) / 2
        · rw [heq]
          exact hp
        · exact h4 (by omega)
      · rw [if_neg hp]
        have hpf : p ((lo + hi) / 2) = false := by
          cases hv : p ((lo + hi) / 2)
          · rfl
          · exact absurd hv hp
        obtain ⟨h1, h2, h3, h4⟩ := ih ((lo + hi) / 2 + 1) hi (by omega) (by omega)
          (fun i j hi1 hij hj1 => hmono i j (by omega) hij hj1)
        refine ⟨by omega, h2, ?_, h4⟩
        intro j hj hjlt
        by_cases hjm : j ≤ (lo + hi) / 2
        · cases hpj : p j
          · rfl
          · have := hmono j ((lo + hi) / 2) hj hjm (by omega) hpj
            rw [hpf] at this
            cases this
        · exact h3 j (by omega) hjlt
    · simp only [bsearchAux, if_neg hlh]
      exact ⟨le_refl lo, hle,
        fun j hj hjl => absurd (lt_of_le_of_lt hj hjl) (lt_irrefl lo),
        fun hlt => absurd hlt hlh⟩

/-- The loop specification at the `hi - lo` fuel the source entry point
uses. -/
theorem bsearchLoop_spec (p : Nat → Bool) (lo hi : Nat) (hle : lo ≤ hi)
    (hmono : ∀ i j, lo ≤ i → i ≤ j → j ≤ hi → p i = true → p j = true) :
    lo ≤ bsearchLoop p lo hi ∧ bsearchLoop p lo hi ≤ hi ∧
    (∀ j, lo ≤ j → j < bsearchLoop p lo hi → p j = false) ∧
    (bsearchLoop p lo hi < hi → p (bsearchLoop p lo hi) = true) :=
  bsearchAux_spec p (hi - lo) lo hi (le_refl _) hle hmono

/-- The concrete internal page of the claim's example:
[(_, c0), (15, c1), (30, c2), (45, c3)], size 4, with
c0 = 0, c1 = 1, c2 = 2, c3 = 3. -/
def pgC6ex : BPlusTreeInternalPage Int :=
  ⟨4, 4, fun i =>
    if i = 1 then (15, 1) else if i = 2 then (30, 2) else if i = 3 then (45, 3) else (0, 0)⟩

/-- C6 (amended from `size ≥ 1` to `size ≥ 2`; see the counterexample for
size = 1): for every internal page with `size ≥ 2` and strictly ascending
keys on `[1, size)`, `Lookup k` returns `array[i-1].child` for the
smallest `i ∈ [1, size)` with `key[i] > k` and `array[size-1].child` when
no such index exists; and the five lookups of the claim's concrete example
hold. -/
theorem C6_internal_lookup :
    (∀ (K : Type) [inst : LinearOrder K] (pg : BPlusTreeInternalPage K) (k : K),
      2 ≤ pg.size →
      (∀ j, j < pg.size → ∀ i, i < j → 1 ≤ i → (pg.array i).1 < (pg.array j).1) →
      ((∀ i, i < pg.size → 1 ≤ i → ¬ k < (pg.array i).1) →
        pg.Lookup k = (pg.array (pg.size - 1)).2) ∧
      (∀ i, i < pg.size → 1 ≤ i → k < (pg.array i).1 →
        (∀ j, j < i → 1 ≤ j → ¬ k < (pg.array j).1) →
        pg.Lookup k = (pg.array (i - 1)).2)) ∧
    (pgC6ex.Lookup 10 = 0 ∧ pgC6ex.Lookup 15 = 1 ∧ pgC6ex.Lookup 29 = 1 ∧
      pgC6ex.Lookup 30 = 2 ∧ pgC6ex.Lookup 99 = 3) := by
  constructor
  · intro K inst pg k hsize hsorted
    have hle : 1 ≤ pg.size - 1 := by omega
    have hmono : ∀ i j, 1 ≤ i → i ≤ j → j ≤ pg.size - 1 →
        (fun i => decide (k < (pg.array i).1)) i = true →
        (fun i => decide (k < (pg.array i).1)) j = true := by
      intro i j hi1 hij hj hPi
      rcases eq_or_lt_of_le hij with rfl | hlt
      · exact hPi
      · have hkey : (pg.array i).1 < (pg.array j).1 := hsorted j (by omega) i hlt hi1
        have hki : k < (pg.array i).1 := of_decide_eq_true hPi
        exact decide_eq_true (lt_trans hki hkey)
    obtain ⟨h1, h2, h3, h4⟩ :=
      bsearchLoop_spec (fun i => decide (k < (pg.array i).1)) 1 (pg.size - 1) hle hmono
    constructor
    · intro hnone
      have hPl : decide (k < (pg.array
          (bsearchLoop (fun i => decide (k < (pg.array i).1)) 1 (pg.size - 1))).1) = false := by
        cases hv : decide (k < (pg.array
            (bsearchLoop (fun i => decide (k < (pg.array i).1)) 1 (pg.size - 1))).1)
        · rfl
        · exact absurd (of_decide_eq_true hv) (hnone _ (by omega) h1)
      have hleq : bsearchLoop (fun i => decide (k < (pg.array i).1)) 1 (pg.size - 1)
          = pg.size - 1 := by
        by_contra hne
        have := h4 (by omega)
        rw [hPl] at this
        cases this
      simp only [BPlusTreeInternalPage.Lookup]
      rw [if_neg (of_decide_eq_false hPl), hleq]
    · intro i hi hi1 hki hleast
      have hil : bsearchLoop (fun i => decide (k < (pg.array i).1)) 1 (pg.size - 1) ≤ i := by
        by_contra hcon
        push_neg at hcon
        have := h3 i hi1 hcon
        rw [decide_eq_true hki] at this
        cases this
      have hli : i ≤ bsearchLoop (fun i => decide (k < (pg.array i).1)) 1 (pg.size - 1) := by
        by_contra hcon
        push_neg at hcon
        have hPl : decide (k < (pg.array
            (bsearchLoop (fun i => decide (k < (pg.array i).1)) 1 (pg.size - 1))).1) = false := by
          cases hv : decide (k < (pg.array
              (bsearchLoop (fun i => decide (k < (pg.array i).1)) 1 (pg.size - 1))).1)
          · rfl
          · exact absurd (of_decide_eq_true hv) (hleast _ hcon h1)
        have hlsz : bsearchLoop (fun i => decide (k < (pg.array i).1)) 1 (pg.size - 1)
            = pg.size - 1 := by
          by_contra hne
          have := h4 (by omega)
          rw [hPl] at this
          cases this
        omega
      have hieq : bsearchLoop (fun i => decide (k < (pg.array i).1)) 1 (pg.size - 1) = i :=
        le_antisymm hil hli
      simp only [BPlusTreeInternalPage.Lookup]
      rw [hieq, if_pos hki]
  · exact ⟨by decide, by decide, by decide, by decide, by decide⟩

theorem C6_internal_lookup_witness :
    pgC6ex.Lookup 99 = (pgC6ex.array (pgC6ex.size - 1)).2 ∧
    pgC6ex.Lookup 29 = (pgC6ex.array (2 - 1)).2 :=
  ⟨(C6_internal_lookup.1 Int pgC6ex 99 (by decide) (by decide)).1 (by decide),
   (C6_internal_lookup.1 Int pgC6ex 29 (by decide) (by decide)).2 2 (by decide) (by decide)
     (by decide) (by decide)⟩

/-- The C6 counterexample page: size 1, meaningful entry (0, child 100) at
slot 0, residual slot 1 holding (5, child 200). -/
def pgC6cx : BPlusTreeInternalPage Int :=
  ⟨1, 4, fun i => if i = 0 then (0, 100) else (5, 200)⟩

/-- C6 counterexample: the claim allows `size = 1`, where `[1, size)` is
empty, so it demands `Lookup` return `array[size-1].child = 100`; the
source's final comparison reads the out-of-range slot `array_[1]` and,
since its residual key 5 is not greater than 10, returns that slot's child
200 instead. -/
theorem C6_counterexample :
    pgC6cx.size = 1 ∧ pgC6cx.Lookup 10 = 200 ∧
    (200 : Int) ≠ (pgC6cx.array (pgC6cx.size - 1)).2 := by
  exact ⟨by decide, by decide, by decide⟩

/-- C7 (amended from "including the empty leaf" to `size ≥ 1`; see the
counterexample for the empty leaf): for every leaf page with `size ≥ 1`
and strictly ascending keys, `KeyIndex k` returns the smallest index
`i ∈ [0, size)` with `array[i].key ≥ k`, and `size` when no such index
exists. -/
theorem C7_leaf_keyindex :
    ∀ (K : Type) [inst : LinearOrder K] (V : Type) (pg : BPlusTreeLeafPage K V) (k : K),
      1 ≤ pg.size →
      (∀ j, j < pg.size → ∀ i, i < j → (pg.array i).1 < (pg.array j).1) →
      ((∀ i, i < pg.size → ¬ k ≤ (pg.array i).1) → pg.KeyIndex k = pg.size) ∧
      (∀ i, i < pg.size → k ≤ (pg.array i).1 →
        (∀ j, j < i → ¬ k ≤ (pg.array j).1) → pg.KeyIndex k = i) := by
  intro K inst V pg k hsize hsorted
  have hle : 0 ≤ pg.size - 1 := by omega
  have hmono : ∀ i j, 0 ≤ i → i ≤ j → j ≤ pg.size - 1 →
      (fun i => decide (k ≤ (pg.array i).1)) i = true →
      (fun i => decide (k ≤ (pg.array i).1)) j = true := by
    intro i j _ hij hj hPi
    rcases eq_or_lt_of_le hij with rfl | hlt
    · exact hPi
    · have hkey : (pg.array i).1 < (pg.array j).1 := hsorted j (by omega) i hlt
      have hki : k ≤ (pg.array i).1 := of_decide_eq_true hPi
      exact decide_eq_true (le_of_lt (lt_of_le_of_lt hki hkey))
  obtain ⟨h1, h2, h3, h4⟩ :=
    bsearchLoop_spec (fun i => decide (k ≤ (pg.array i).1)) 0 (pg.size - 1) hle hmono
  constructor
  · intro hnone
    have hPl : decide (k ≤ (pg.array
        (bsearchLoop (fun i => decide (k ≤ (pg.array i).1)) 0 (pg.size - 1))).1) = false := by
      cases hv : decide (k ≤ (pg.array
          (bsearchLoop (fun i => decide (k ≤ (pg.array i).1)) 0 (pg.size - 1))).1)
      · rfl
      · exact absurd (of_decide_eq_true hv) (hnone _ (by omega))
    have hleq : bsearchLoop (fun i => decide (k ≤ (pg.array i).1)) 0 (pg.size - 1)
        = pg.size - 1 := by
      by_contra hne
      have := h4 (by omega)
      rw [hPl] at this
      cases this
    simp only [BPlusTreeLeafPage.KeyIndex]
    rw [if_neg (of_decide_eq_false hPl), hleq]
    omega
  · intro i hi hki hleast
    have hil : bsearchLoop (fun i => decide (k ≤ (pg.array i).1)) 0 (pg.size - 1) ≤ i := by
      by_contra hcon
      push_neg at hcon
      have := h3 i (Nat.zero_le i) hcon
      rw [decide_eq_true hki] at this
      cases this
    have hli : i ≤ bsearchLoop (fun i => decide (k ≤ (pg.array i).1)) 0 (pg.size - 1) := by
      by_contra hcon
      push_neg at hcon
      have hPl : decide (k ≤ (pg.array
          (bsearchLoop (fun i => decide (k ≤ (pg.array i).1)) 0 (pg.size - 1))).1) = false := by
        cases hv : decide (k ≤ (pg.array
            (bsearchLoop (fun i => decide (k ≤ (pg.array i).1)) 0 (pg.size - 1))).1)
        · rfl
        · exact absurd (of_decide_eq_true hv) (hleast _ hcon)
      have hlsz : bsearchLoop (fun i => decide (k ≤ (pg.array i).1)) 0 (pg.size - 1)
          = pg.size - 1 := by
        by_contra hne
        have := h4 (by omega)
        rw [hPl] at this
        cases this
      omega
    have hieq : bsearchLoop (fun i => decide (k ≤ (pg.array i).1)) 0 (pg.size - 1) = i :=
      le_antisymm hil hli
    simp only [BPlusTreeLeafPage.KeyIndex]
    rw [hieq, if_pos hki]

/-- A concrete sorted leaf [(10, 0), (20, 1), (30, 2)] for the C7
witness. -/
def pgC7w : BPlusTreeLeafPage Int Int :=
  ⟨3, 4, -1, fun i =>
    if i = 0 then (10, 0) else if i = 1 then (20, 1) else if i = 2 then (30, 2) else (0, 0)⟩

theorem C7_leaf_keyindex_witness :
    pgC7w.KeyIndex 15 = 1 ∧ pgC7w.KeyIndex 31 = pgC7w.size :=
  ⟨(C7_leaf_keyindex Int Int pgC7w 15 (by decide) (by decide)).2 1 (by decide) (by decide)
     (by decide),
   (C7_leaf_keyindex Int Int pgC7w 31 (by decide) (by decide)).1 (by decide)⟩

/-- The C7 counterexample leaf: empty (size 0), residual slot 0 holding
key 0. -/
def pgC7cx : BPlusTreeLeafPage Int Int := ⟨0, 4, -1, fun _ => (0, 0)⟩

/-- C7 counterexample: the claim includes the empty leaf, where no index
qualifies, so it demands `KeyIndex` return `size = 0`; the source's final
comparison reads the out-of-range slot `array_[0]` and, since its residual
key 0 is smaller than the search key 5, returns `lo + 1 = 1` instead. -/
theorem C7_counterexample :
    pgC7cx.size = 0 ∧ pgC7cx.KeyIndex 5 = 1 ∧ (1 : Nat) ≠ pgC7cx.size := by
  exact ⟨by decide, by decide, by decide⟩

end Bustub
